import Mathlib

/-!
Verification development for the zsync TypeScript implementation
(kayahr/zsync).  The definitions below are shallow embeddings of the
functions in `src/main/zsync/*.ts` (`internal.ts`, `hash.ts`, `rsum.ts`,
`range.ts`, `state.ts`, `zsync.ts`, `client.ts`).  Byte buffers
(`Uint8Array`) are modelled as `List Nat` of byte values, JavaScript
numbers used as nonnegative integers as `Nat` (with `Int` where a value
can go negative), linked-list pointers into the stationary `blockhashes`
array as block indices (`Option Nat` for nullable pointers), and the
MD4 / SHA-1 collaborators as explicit function parameters.  Each
definition carries a reference to the source function it embeds.
-/

namespace Zsync

/-- BITHASHBITS constant from `internal.ts`. -/
def BITHASHBITS : Nat := 3

/-- rsum structure from `rsum.ts`: the weak rolling checksum pair `(a, b)`,
each held in 16 bits. -/
structure rsum where
  a : Nat
  b : Nat
deriving Repr, DecidableEq

/-- rsum_a_mask computation from `rcksum_init` in `state.ts`:
`rsum_bytes < 3 ? 0 : rsum_bytes === 3 ? 0xff : 0xffff`. -/
def rsum_a_mask (rsum_bytes : Nat) : Nat :=
  if rsum_bytes < 3 then 0 else if rsum_bytes = 3 then 0xff else 0xffff

/-- Loop body of `rcksum_calc_rsum_block` in `rsum.ts`: while `len ≠ 0`,
read `c = data[i++]`, set `a = (a + c) & 0xffff`, `b = (b + len * c) & 0xffff`,
decrement `len`.  `& 0xffff` on nonnegative values is `% 65536`. -/
def calc_rsum_go (data : List Nat) : Nat → Nat → Nat → Nat → rsum
  | _, a, b, 0 => ⟨a, b⟩
  | i, a, b, len + 1 =>
      let c := data.getD i 0
      calc_rsum_go data (i + 1) ((a + c) % 65536) ((b + (len + 1) * c) % 65536) len

/-- rcksum_calc_rsum_block from `rsum.ts`: the weak checksum of one block
of data. -/
def rcksum_calc_rsum_block (data : List Nat) (len : Nat) : rsum :=
  calc_rsum_go data 0 0 0 len

/-- calc_rhash from `internal.ts`, verbatim (including its use of
`e[0].r.a` — the weak `a` sum of block index 0 — in the `seq_matches = 1`
branch):
`h = e[ei].r.b; h ^= (seq_matches > 1 ? e[ei+1].r.b : e[0].r.a & rsum_a_mask) << BITHASHBITS`.
The `blockhashes` array is passed as the list of stored weak sums. -/
def calc_rhash (seq_matches mask_a : Nat) (e : List rsum) (ei : Nat) : Nat :=
  let h := (e.getD ei ⟨0, 0⟩).b
  h ^^^ ((if seq_matches > 1 then (e.getD (ei + 1) ⟨0, 0⟩).b
          else (e.getD 0 ⟨0, 0⟩).a &&& mask_a) <<< BITHASHBITS)

/-- Hash computed by the matcher's table lookup in
`rcksum_submit_source_data` (`rsum.ts`), from the current rolling sums:
`hash = z.r[0].b; hash ^= ((seq_matches > 1 ? z.r[1].b : z.r[0].a & rsum_a_mask) << BITHASHBITS) >>> 0`. -/
def lookup_hash (seq_matches mask_a : Nat) (r0 r1 : rsum) : Nat :=
  r0.b ^^^ ((if seq_matches > 1 then r1.b else r0.a &&& mask_a) <<< BITHASHBITS)

/-!  Control-file checksum-table parsing (`zsync_read_blocksums` in
`zsync.ts`).  One per-block record holds `rsum_bytes` bytes of weak sum.
The source reads them into byte offsets `4 - rsum_bytes .. 3` of the
backing store of a fresh `Uint16Array(2)` (so the leading `4 - rsum_bytes`
bytes are zero), then takes `r.a = buffer[0]` (a host-endian — on all
common platforms little-endian — 16-bit read, with no byte swap) and
`r.b = ((buffer[1] & 0xff00) >> 8) | ((buffer[1] & 0xff) << 8)`
(a byte-swapped, hence big-endian, 16-bit read). -/

/-- Weak-sum record parsing of `zsync_read_blocksums` (`zsync.ts`) for one
block: `rec` is the list of the `rsum_bytes` record bytes from the control
file. -/
def read_blocksum_rsum (rsum_bytes : Nat) (rec : List Nat) : rsum :=
  let buf := List.replicate (4 - rsum_bytes) 0 ++ rec
  let b0 := buf.getD 0 0
  let b1 := buf.getD 1 0
  let b2 := buf.getD 2 0
  let b3 := buf.getD 3 0
  let u0 := b0 + 256 * b1
  let u1 := b2 + 256 * b3
  { a := u0, b := ((u1 &&& 0xff00) >>> 8) ||| ((u1 &&& 0xff) <<< 8) }

/-- Stored weak sum after `rcksum_add_target_block` (`hash.ts`):
`e.r.a = r.a & z.rsum_a_mask; e.r.b = r.b`. -/
def stored_weak (rsum_bytes : Nat) (rec : List Nat) : rsum :=
  let r := read_blocksum_rsum rsum_bytes rec
  { a := r.a &&& rsum_a_mask rsum_bytes, b := r.b }

/-!  Remote-fetch driver loop (`fetch_remaining_blocks` in `client.ts`).
The per-URL `status` array starts out empty (every entry `undefined`);
the source guards a fetch attempt with `if (status[try2] !== 0)` and on
failure sets `status[try2] = 1` and decrements `ok_urls`.  JavaScript
array reads of unset indices yield `undefined`; we model the array as
`List (Option Nat)` where `none` is `undefined`.  The loop head
`while (zsync_status(zs) < 2 && ok_urls !== 0)` consults the session
status; we take the session's incompleteness at each iteration, the
random pick and the fetch result as an oracle script, one triple per
loop iteration. -/

/-- JavaScript sparse-array read `status[i]`. -/
def js_get (l : List (Option Nat)) (i : Nat) : Option Nat :=
  l.getD i none

/-- JavaScript sparse-array write `status[i] = v` (extends the array with
holes as needed). -/
def js_set (l : List (Option Nat)) (i : Nat) (v : Nat) : List (Option Nat) :=
  (l ++ List.replicate (i + 1 - l.length) none).set i (some v)

/-- State of the `fetch_remaining_blocks` loop: the per-URL status array,
the `ok_urls` counter and the log of URLs on which a fetch was attempted. -/
structure FetchSt where
  status : List (Option Nat)
  ok_urls : Int
  attempts : List Nat
deriving Repr, DecidableEq

/-- Body of one iteration of the `fetch_remaining_blocks` loop
(`client.ts`): `try2` is the random pick, `rc` the result of
`fetch_remaining_blocks_http`.  The fetch is attempted iff
`status[try2] !== 0`; on `rc !== 0` the URL is marked with `1` and
`ok_urls` is decremented. -/
def fetch_step (st : FetchSt) (try2 : Nat) (rc : Int) : FetchSt :=
  if js_get st.status try2 ≠ some 0 then
    let st' : FetchSt := { st with attempts := st.attempts ++ [try2] }
    if rc ≠ 0 then
      { st' with status := js_set st'.status try2 1, ok_urls := st'.ok_urls - 1 }
    else st'
  else st

/-- Driver loop of `fetch_remaining_blocks` (`client.ts`), driven by the
oracle script: each entry `(incomplete, try2, rc)` gives the value of
`zsync_status(zs) < 2` at the loop head, the random URL pick, and the
fetch result for that iteration. -/
def fetch_loop : List (Bool × Nat × Int) → FetchSt → FetchSt
  | [], st => st
  | (incomplete, try2, rc) :: rest, st =>
      if incomplete ∧ st.ok_urls ≠ 0 then
        fetch_loop rest (fetch_step st try2 rc)
      else st

/-- Initial state of `fetch_remaining_blocks` for `n` URLs: empty status
array, `ok_urls = n`, nothing attempted. -/
def fetch_init (n : Nat) : FetchSt :=
  { status := [], ok_urls := (n : Int), attempts := [] }

/-!  Known-range bookkeeping (`range.ts`).  The flat array `rs.ranges` of
`2·numranges` block ids is modelled as a list of `(lo, hi)` pairs
(`ranges[2i] = lo_i`, `ranges[2i+1] = hi_i`); `rs.numranges` is its
length.  `range_before_block` does bisection with `min`/`max` indices;
`max` starts at `numranges - 1`, which is `-1` for the empty list, so the
indices are `Int`. -/

/-- Bisection loop of `range_before_block` (`range.ts`): while
`min <= max`, probe `r = (max + min) >> 1`; descend right when
`x > ranges[2r+1]`, left when `x < ranges[2r]`, return `-1` when inside
range `r`; on exit return `min`.  The structural `fuel` argument only
bounds the iteration count; each step shrinks the window `[mn, mx]`, so
with `fuel ≥ mx + 1 - mn` (as every caller supplies) the `fuel = 0` arm
is never reached. -/
def rbb_go (ranges : List (Nat × Nat)) (x : Nat) : Int → Int → Nat → Int
  | mn, _, 0 => mn
  | mn, mx, fuel + 1 =>
      if mn ≤ mx then
        if x > (ranges.getD ((mx + mn) / 2).toNat (0, 0)).2 then
          rbb_go ranges x ((mx + mn) / 2 + 1) mx fuel
        else if x < (ranges.getD ((mx + mn) / 2).toNat (0, 0)).1 then
          rbb_go ranges x mn ((mx + mn) / 2 - 1) fuel
        else -1
      else mn

/-- range_before_block from `range.ts`: `-1` when `x` lies inside an
existing range, otherwise the index of the gap between ranges that
contains `x` (`0` = before the first range, `numranges` = after the
last). -/
def range_before_block (ranges : List (Nat × Nat)) (x : Nat) : Int :=
  rbb_go ranges x 0 ((ranges.length : Int) - 1) (ranges.length + 1)

/-- next_known_block from `range.ts`: the id of the next block at or
after `x` that we already have data for, or `blocks` if none. -/
def next_known_block (blocks : Nat) (ranges : List (Nat × Nat)) (x : Nat) : Nat :=
  let r := range_before_block ranges x
  if r = -1 then x
  else if r = (ranges.length : Int) then blocks
  else (ranges.getD r.toNat (0, 0)).1

/-- add_to_ranges from `range.ts`: mark block `x` as known.  The four
branches are, in source order: merge the two ranges around an exactly
filled one-block hole; extend the range below (`ranges[2(r-1)+1] === x-1`,
over ℕ `hi + 1 = x`); extend the range above (`ranges[2r] === x+1`);
insert a new singleton pair at position `r`.  (The source also counts
`gotblocks`, which no claim uses.) -/
def add_to_ranges (ranges : List (Nat × Nat)) (x : Nat) : List (Nat × Nat) :=
  let r := range_before_block ranges x
  if r = -1 then ranges
  else
    let k := r.toNat
    let n := ranges.length
    if 0 < k ∧ k < n ∧ (ranges.getD (k - 1) (0, 0)).2 + 1 = x ∧
        (ranges.getD k (0, 0)).1 = x + 1 then
      ranges.take (k - 1) ++
        ((ranges.getD (k - 1) (0, 0)).1, (ranges.getD k (0, 0)).2) :: ranges.drop (k + 1)
    else if 0 < k ∧ n ≠ 0 ∧ (ranges.getD (k - 1) (0, 0)).2 + 1 = x then
      ranges.take (k - 1) ++ ((ranges.getD (k - 1) (0, 0)).1, x) :: ranges.drop k
    else if k < n ∧ (ranges.getD k (0, 0)).1 = x + 1 then
      ranges.take k ++ (x, (ranges.getD k (0, 0)).2) :: ranges.drop (k + 1)
    else
      ranges.take k ++ (x, x) :: ranges.drop k

/-- Membership of a block id in the set of known ranges. -/
def RMem (l : List (Nat × Nat)) (x : Nat) : Prop :=
  ∃ p ∈ l, p.1 ≤ x ∧ x ≤ p.2

instance (l : List (Nat × Nat)) (x : Nat) : Decidable (RMem l x) :=
  inferInstanceAs (Decidable (∃ p ∈ l, p.1 ≤ x ∧ x ≤ p.2))

/-- Well-formedness invariant of the known-range list maintained by
`range.ts` from the empty initial state: every pair is a nonempty closed
interval, and the pairs are sorted, disjoint and non-adjacent (successive
ranges are separated by a gap of at least one block).  This subsumes the
sortedness and disjointness the specification demands. -/
def Canonical (l : List (Nat × Nat)) : Prop :=
  (∀ p ∈ l, p.1 ≤ p.2) ∧ l.Pairwise (fun p q => p.2 + 1 < q.1)

instance (l : List (Nat × Nat)) : Decidable (Canonical l) :=
  inferInstanceAs (Decidable (_ ∧ _))

/-- Number of known ranges lying entirely below `x`; for a canonical list
with `x` outside every range this is the value `range_before_block`
returns. -/
def countBelow (l : List (Nat × Nat)) (x : Nat) : Nat :=
  (l.filter (fun p => p.2 < x)).length

/-!  Checksum-index state (`internal.ts`, `state.ts`, `hash.ts`,
`rsum.ts`).  The stationary `blockhashes` array is split into its three
per-entry fields: the stored weak sums `blockhash_r`, the stored strong
sums `blockhash_checksum`, and the hash-chain `next` pointers `nexts`
(a pointer to `blockhashes[j]` is the index `j`; `null` is `none`).
`get_HE_blockid` (pointer subtraction in the source, `indexOf` in the
port) is then the identity on indices.  Scratch-file writes are recorded
in the `written` log as the list of block ids persisted, in order. -/

structure rcksum_state where
  blocks : Nat
  blocksize : Nat
  blockshift : Nat
  seq_matches : Nat
  rsum_a_mask : Nat
  checksum_bytes : Nat
  blockhash_r : List rsum
  blockhash_checksum : List (Option (List Nat))
  nexts : List (Option Nat)
  hashmask : Nat
  bithashmask : Nat
  rsum_hash : List (Option Nat)
  bithash : List Nat
  rover : Option Nat
  next_match : Option Nat
  next_known : Nat
  r0 : rsum
  r1 : rsum
  ranges : List (Nat × Nat)
  written : List Nat
deriving Repr, DecidableEq

/-- Loop choosing the hash-table size exponent in `build_hash`
(`hash.ts`): `while ((2 << (i - 1)) > blocks && i > 4) i--`, written
structurally on `i` (the guard `i > 4` keeps `i` positive, so `i - 1`
in the recursive call is the predecessor). -/
def hash_i_loop (blocks : Nat) : Nat → Nat
  | 0 => 0
  | i + 1 => if 2 <<< i > blocks ∧ i + 1 > 4 then hash_i_loop blocks i else i + 1

/-- Table-filling loop of `build_hash` (`hash.ts`), iterating over the
block ids in reverse (prepending to the bucket chains): for each id,
`e.next = rsum_hash[h & hashmask]`, `rsum_hash[h & hashmask] = e`, and
`bithash[(h & bithashmask) >> 3] |= 1 << (h & 7)`. -/
def build_loop (seq amask hashmask bithashmask : Nat) (bh_r : List rsum) :
    Nat → List (Option Nat) → List (Option Nat) → List Nat →
      List (Option Nat) × List (Option Nat) × List Nat
  | 0, nexts, rh, bit => (nexts, rh, bit)
  | id + 1, nexts, rh, bit =>
      let h := calc_rhash seq amask bh_r id
      let idx := (h &&& bithashmask) >>> 3
      build_loop seq amask hashmask bithashmask bh_r id
        (nexts.set id (rh.getD (h &&& hashmask) none))
        (rh.set (h &&& hashmask) (some id))
        (bit.set idx ((bit.getD idx 0) ||| (1 <<< (h &&& 7))))

/-- build_hash from `hash.ts`: choose the table size, allocate the bucket
and bit tables, and fill them from the block ids in reverse order. -/
def build_hash (z : rcksum_state) : rcksum_state :=
  let i := hash_i_loop z.blocks 16
  let hashmask := (2 <<< i) - 1
  let bithashmask := (2 <<< (i + BITHASHBITS)) - 1
  match build_loop z.seq_matches z.rsum_a_mask hashmask bithashmask z.blockhash_r
      z.blocks z.nexts (List.replicate (hashmask + 1) none)
      (List.replicate (bithashmask + 1) 0) with
  | (nexts, rh, bit) =>
      { z with hashmask := hashmask, bithashmask := bithashmask,
               nexts := nexts, rsum_hash := rh, bithash := bit }

/-- Chain walk of `remove_block_from_hash` (`hash.ts`).  The source walks
the local variable `p` down the chain starting at the bucket head; when
`p === t` it sets `z.rover = t.next` (only if `t === z.rover`),
reassigns the local `p`, and returns.  No `next` pointer and no bucket
head is ever written, so only `rover` can change; the walk returns the
new `rover`.  The fuel bounds the walk on (never-constructed) cyclic
chains. -/
def remove_walk (nexts : List (Option Nat)) (t : Nat) (rover : Option Nat) :
    Option Nat → Nat → Option Nat
  | none, _ => rover
  | some _, 0 => rover
  | some pid, fuel + 1 =>
      if pid = t then (if rover = some t then nexts.getD t none else rover)
      else remove_walk nexts t rover (nexts.getD pid none) fuel

/-- remove_block_from_hash from `hash.ts`. -/
def remove_block_from_hash (z : rcksum_state) (id : Nat) : rcksum_state :=
  let h := calc_rhash z.seq_matches z.rsum_a_mask z.blockhash_r id
  { z with rover :=
      (remove_walk z.nexts id z.rover (z.rsum_hash.getD (h &&& z.hashmask) none)
        (z.nexts.length + 1)) }

/-- write_blocks from `rsum.ts`: persist blocks `bfrom … bto` (inclusive;
`bto` can be `bfrom - 1`, writing nothing) to the scratch file, then for
each id `remove_block_from_hash` and `add_to_ranges`. -/
def write_blocks (z : rcksum_state) (bfrom : Nat) (bto : Int) : rcksum_state :=
  let ids := List.range' bfrom (bto + 1 - (bfrom : Int)).toNat
  ids.foldl
    (fun z id =>
      let z := remove_block_from_hash z id
      { z with ranges := add_to_ranges z.ranges id })
    { z with written := z.written ++ ids }

/-- Chain reachable from a head pointer (for stating chain-membership
properties). -/
def chain_from (nexts : List (Option Nat)) : Option Nat → Nat → List Nat
  | none, _ => []
  | some _, 0 => []
  | some i, fuel + 1 => i :: chain_from nexts (nexts.getD i none) fuel

/-- Bucket chain of the weak-hash table for hash value `h`. -/
def bucket_chain (z : rcksum_state) (h : Nat) : List Nat :=
  chain_from z.nexts (z.rsum_hash.getD (h &&& z.hashmask) none) (z.nexts.length + 1)

/-- areEqual helper from `check_checksums_on_hash_chain` (`rsum.ts`):
`second != null && first.length === second.length && first.every((v, i) => v === second[i])`,
i.e. list equality against a non-null stored sum.  `first` is the full
16-byte MD4 digest `md4sum[check_md4]`. -/
def areEqual (first : List Nat) (second : Option (List Nat)) : Bool :=
  match second with
  | none => false
  | some s => first == s

/-- Strong-checksum do-while loop of `check_checksums_on_hash_chain`
(`rsum.ts`):
`do { … if (areEqual(md4sum[check_md4], blockhashes[id+check_md4].checksum)) ok = false; else if (next_known === -1) check_md4++; } while (ok && !onlyone && check_md4 < seq_matches)`.
The local `const next_known = -1` never changes inside the loop, so the
`else` branch always increments; `md4sum[i]` is memoised in the source
but MD4 is pure, so it is recomputed here.  The fuel `seq + 1` bounds the
number of body executions. -/
def strong_loop (md4 : List Nat → List Nat) (data : List Nat) (bs : Nat)
    (checksums : List (Option (List Nat))) (id : Nat) (onlyone : Bool) (seq : Nat) :
    Nat → Bool → Nat → Bool × Nat
  | 0, ok, check => (ok, check)
  | fuel + 1, ok, check =>
      let m := md4 ((data.drop (bs * check)).take bs)
      let s := if areEqual m (checksums.getD (id + check) none)
               then (false, check) else (ok, check + 1)
      if s.1 = true ∧ onlyone = false ∧ s.2 < seq then
        strong_loop md4 data bs checksums id onlyone seq fuel s.1 s.2
      else s

/-- Chain-walking loop of `check_checksums_on_hash_chain` (`rsum.ts`):
pop `e` from `rover` (advancing `rover` to `e.next` unless `onlyone`),
check the weak sum(s), then the strong sums; on accept (`ok` true after
the do-while) compute the number of blocks to write from
`next_known_block`, update `next_match`/`next_known` and call
`write_blocks`. -/
def check_loop (md4 : List Nat → List Nat) (data : List Nat) (onlyone : Bool) :
    Nat → rcksum_state → Nat → rcksum_state × Nat
  | 0, z, got => (z, got)
  | fuel + 1, z, got =>
      match _he : z.rover with
      | none => (z, got)
      | some e =>
          let z := { z with rover := if onlyone then none else z.nexts.getD e none }
          if ¬((z.blockhash_r.getD e ⟨0, 0⟩).a = (z.r0.a &&& z.rsum_a_mask) ∧
               (z.blockhash_r.getD e ⟨0, 0⟩).b = z.r0.b) then
            check_loop md4 data onlyone fuel z got
          else
            -- id = get_HE_blockid(z, e): the index of the entry
            let id := e
            if onlyone = false ∧ z.seq_matches > 1 ∧
               ¬((z.blockhash_r.getD (id + 1) ⟨0, 0⟩).a = (z.r1.a &&& z.rsum_a_mask) ∧
                 (z.blockhash_r.getD (id + 1) ⟨0, 0⟩).b = z.r1.b) then
              check_loop md4 data onlyone fuel z got
            else
              match strong_loop md4 data z.blocksize z.blockhash_checksum id onlyone
                  z.seq_matches (z.seq_matches + 1) true 0 with
              | (ok, check) =>
                if ok then
                  let nk := if onlyone then z.next_known
                            else next_known_block z.blocks z.ranges id
                  if nk > id + check then
                    let z := { z with next_match := some (id + check),
                                      next_known := if onlyone then z.next_known else nk }
                    let z := write_blocks z id ((id : Int) + check - 1)
                    check_loop md4 data onlyone fuel z (got + check)
                  else
                    let num : Int := (nk : Int) - id
                    let z := write_blocks z id ((id : Int) + num - 1)
                    check_loop md4 data onlyone fuel z (got + num.toNat)
                else
                  check_loop md4 data onlyone fuel z got

/-- check_checksums_on_hash_chain from `rsum.ts`: clear `next_match`, set
`rover` to the chain head `e` and walk the chain.  Returns the new state
and the number of blocks obtained. -/
def check_checksums_on_hash_chain (md4 : List Nat → List Nat) (z : rcksum_state)
    (e : Nat) (data : List Nat) (onlyone : Bool) : rcksum_state × Nat :=
  let z := { z with next_match := none, rover := some e }
  check_loop md4 data onlyone (z.nexts.length + 1) z 0

/-- Per-block verification loop of `rcksum_submit_blocks` (`rsum.ts`):
for `x` from `bfrom` to `bto`, compare
`JSON.stringify(md4sum.subarray(0, checksum_bytes))` with
`JSON.stringify(blockhashes[x].checksum)` (equal iff the stored sum is
non-null and equals the truncated digest as a byte list); on the first
mismatch write the verified prefix (only if nonempty) and return `-1`;
after the loop write the whole range and return `0`. -/
def submit_go (md4 : List Nat → List Nat) (data : List Nat) (bfrom bto : Nat)
    (z : rcksum_state) : Nat → Nat → rcksum_state × Int
  | _, 0 => (write_blocks z bfrom (bto : Int), 0)
  | x, fuel + 1 =>
      let md4sum := md4 ((data.drop ((x - bfrom) <<< z.blockshift)).take z.blocksize)
      if ¬ (some (md4sum.take z.checksum_bytes) = z.blockhash_checksum.getD x none) then
        (if bfrom < x then write_blocks z bfrom ((x : Int) - 1) else z, -1)
      else submit_go md4 data bfrom bto z (x + 1) fuel

/-- rcksum_submit_blocks from `rsum.ts` (the receive-path submit over the
inclusive block range `[bfrom, bto]`).  The source first builds the hash
tables if absent; table building changes no field that the verification
or `write_blocks` consult, so it is omitted here. -/
def rcksum_submit_blocks (md4 : List Nat → List Nat) (z : rcksum_state)
    (data : List Nat) (bfrom bto : Nat) : rcksum_state × Int :=
  submit_go md4 data bfrom bto z bfrom (bto + 1 - bfrom)

/-- Proposition that block `x`'s strong sum, truncated to
`checksum_bytes`, matches the stored checksum — the per-block test of
`rcksum_submit_blocks`. -/
def block_ok (md4 : List Nat → List Nat) (z : rcksum_state) (data : List Nat)
    (bfrom x : Nat) : Prop :=
  some ((md4 ((data.drop ((x - bfrom) <<< z.blockshift)).take z.blocksize)).take
      z.checksum_bytes) = z.blockhash_checksum.getD x none

instance (md4 : List Nat → List Nat) (z : rcksum_state) (data : List Nat)
    (bfrom x : Nat) : Decidable (block_ok md4 z data bfrom x) :=
  inferInstanceAs (Decidable (_ = _))

/-- Example session used to exercise the matcher and index paths: a
single target block (block 0) of size 1 with content byte `7` (weak sum
`(7, 7)`), stored strong sum `[1, 1, …]` (16 bytes), `seq_matches = 1`,
`rsum_bytes = 4` (so `rsum_a_mask = 0xffff`), `checksum_bytes = 16`; the
hash tables are not yet built. -/
def demo_base : rcksum_state :=
  { blocks := 1, blocksize := 1, blockshift := 0, seq_matches := 1,
    rsum_a_mask := 0xffff, checksum_bytes := 16,
    blockhash_r := [⟨7, 7⟩],
    blockhash_checksum := [some (List.replicate 16 1)],
    nexts := [none], hashmask := 0, bithashmask := 0,
    rsum_hash := [], bithash := [],
    rover := none, next_match := none, next_known := 0,
    r0 := ⟨7, 7⟩, r1 := ⟨0, 0⟩, ranges := [], written := [] }

/-- MD4 oracle whose digest (`[0, 0, …]`) differs from the stored strong
sum of `demo_base`'s block 0. -/
def demo_md4_bad : List Nat → List Nat := fun _ => List.replicate 16 0

/-- MD4 oracle whose digest (`[1, 1, …]`) equals the stored strong sum of
`demo_base`'s block 0. -/
def demo_md4_ok : List Nat → List Nat := fun _ => List.replicate 16 1

/-!  Needed-range computation (`rcksum_needed_block_ranges` in `range.ts`
and `zsync_needed_byte_ranges` in `zsync.ts`).  The known ranges
`rs.ranges` (a flat array of `2·numranges` block ids) are modelled as a
list of `(lo, hi)` pairs; the prospective result array `r` stays a flat
`List Nat` exactly as in the source.  Note the source's final
`if (n === 1 && r[0] >= r[1]) { n = 0; }` computes `n` but then returns
the array `r` whole; `n` is dropped (the C original returned `n` through
an out-parameter). -/

/-- Loop body of `rcksum_needed_block_ranges` (`range.ts`), iterating over
the known ranges with the prospective result array `r` and count `n`. -/
def nbr_loop (from_ : Nat) : List (Nat × Nat) → List Nat → Nat → List Nat × Nat
  | [], r, n => (r, n)
  | (lo, hi) :: rest, r, n =>
      if lo > r.getD (2 * n - 1) 0 then nbr_loop from_ rest r n
      else if hi < from_ then nbr_loop from_ rest r n
      else if n = 1 ∧ lo ≤ from_ then
        nbr_loop from_ rest (r.set 0 (hi + 1)) n
      else if hi + 1 ≥ r.getD (2 * n - 1) 0 then
        -- `rs.ranges[2*i+1] >= r[2*n-1] - 1` (JS arithmetic; `hi ≥ v - 1`
        -- over the integers is `hi + 1 ≥ v` over ℕ)
        nbr_loop from_ rest (r.set (2 * n - 1) lo) n
      else
        -- split: r[2n] := hi + 1; r[2n+1] := old r[2n-1]; r[2n-1] := lo
        nbr_loop from_ rest ((r ++ [hi + 1, r.getD (2 * n - 1) 0]).set (2 * n - 1) lo) (n + 1)

/-- rcksum_needed_block_ranges from `range.ts` (returns the flat array
`r`, as the source does). -/
def rcksum_needed_block_ranges (blocks : Nat) (ranges : List (Nat × Nat))
    (from_ to_ : Nat) : List Nat :=
  let to' := if to_ ≥ blocks then blocks else to_
  (nbr_loop from_ ranges [from_, to'] 1).1

/-- zsync_needed_byte_ranges from `zsync.ts`: request all needed block
ranges in `[0, 0x7fffffff]`, then convert block ranges to byte ranges via
`byterange[2i] = blrange[2i]·blocksize` and
`byterange[2i+1] = blrange[2i+1]·blocksize - 1` with
`nrange = blrange.length >> 1`. -/
def zsync_needed_byte_ranges (blocks blocksize : Nat)
    (ranges : List (Nat × Nat)) : List Int :=
  let blrange := rcksum_needed_block_ranges blocks ranges 0 0x7fffffff
  let nrange := blrange.length / 2
  (List.range nrange).flatMap fun i =>
    [((blrange.getD (2 * i) 0 : Int)) * blocksize,
     ((blrange.getD (2 * i + 1) 0 : Int)) * blocksize - 1]

/-!  Completion path (`zsync_complete` and `zsync_sha1` in `zsync.ts`).
The scratch file's byte content is a `List Nat`; `truncate(filename, n)`
cuts the file to `n` bytes, zero-extending if it was shorter.  The SHA-1
collaborator is an explicit parameter `sha1hex` returning the hex digest
string of a byte list. -/

/-- Effect of `truncate(filename, filelen)` on the scratch file's
content. -/
def truncate_file (content : List Nat) (filelen : Nat) : List Nat :=
  content.take filelen ++ List.replicate (filelen - content.length) 0

/-- zsync_sha1 from `zsync.ts`: reads the (truncated) file, compares
`zs.checksum === shasum.digest("hex")`, returns `1` on match, `-1`
otherwise. -/
def zsync_sha1 (sha1hex : List Nat → String) (checksum : String)
    (content : List Nat) : Int :=
  if checksum = sha1hex content then 1 else -1

/-- zsync_complete from `zsync.ts`: truncate the scratch file to
`filelen`, then — when a checksum is present and its method is
`"SHA-1"` — verify it via `zsync_sha1`; otherwise return `0`.  Returns
the return code together with the truncated file content. -/
def zsync_complete (sha1hex : List Nat → String) (content : List Nat)
    (filelen : Nat) (checksum : Option String) (checksum_method : String) :
    Int × List Nat :=
  let tr := truncate_file content filelen
  match checksum with
  | some c => if checksum_method = "SHA-1" then (zsync_sha1 sha1hex c tr, tr) else (0, tr)
  | none => (0, tr)

/-!  Receive path (`zsync_receive_data` in `zsync.ts`).  The receiver
keeps a one-block working buffer `outbuf` and the position `outoffset`
reached by the previous call.  Calls to `zsync_submit_data` are recorded
as `(buffer, offset, blocks)` log entries; the result of the underlying
`rcksum_submit_blocks` is abstracted as the parameter `σ` (the return
value `ret` is `1` iff some submission returned nonzero).  One floating
point subtlety of the source is modelled exactly: `w = len / blocksize`
is a float, the `for (x = bfrom; x <= bto; x++)` loop of
`rcksum_submit_blocks` then runs `⌊len / blocksize⌋` times, and
`w *= blocksize` recovers exactly `len` (blocksize is a power of two),
so phase 2 consumes all `len` bytes. -/

/-- Receiver state from `zsync_receiver` in `zsync.ts`. -/
structure zsync_receiver where
  blocksize : Nat
  outbuf : List Nat
  outoffset : Nat
deriving Repr, DecidableEq

/-- Semantics of `dst.set(src, pos)` on a `Uint8Array`: overwrite
`dst[pos … pos + src.length)` with `src`. -/
def buf_overwrite (dst : List Nat) (pos : Nat) (src : List Nat) : List Nat :=
  dst.take pos ++ src ++ dst.drop (pos + src.length)

/-- zsync_receive_data from `zsync.ts`.  Returns the new receiver state,
the log of `zsync_submit_data` calls `(buffer, offset, blocks)`, and the
return value (`0` ok, `1` if some submission failed according to `σ`). -/
def zsync_receive_data (σ : List Nat → Nat → Nat → Int) (zr : zsync_receiver)
    (buf : List Nat) (offset len : Nat) :
    zsync_receiver × List (List Nat × Nat × Nat) × Nat :=
  let bs := zr.blocksize
  -- phase 1: if the chunk is not block-aligned, try to complete the
  -- pending partial block (only when the previous call ended exactly here)
  let p1 :=
    if offset % bs ≠ 0 then
      let xm := bs - offset % bs
      if zr.outoffset = offset then
        -- `x = len; if (x > bs - offset % bs) x = bs - offset % bs`, and in
        -- the `len === 0` flush branch `len = x = bs - offset % bs`
        let x := if len ≠ 0 then min len xm else xm
        let ob :=
          if len ≠ 0 then buf_overwrite zr.outbuf (offset % bs) (buf.take x)
          else buf_overwrite zr.outbuf (offset % bs) (List.replicate x 0)
        let log :=
          if (x + offset) % bs = 0 then [(ob, offset + x - bs, 1)] else []
        let len' := (if len ≠ 0 then len else x) - x
        (ob, buf.drop x, len', offset + x, log)
      else
        (zr.outbuf, buf.drop (min len xm), len - min len xm,
         offset + min len xm, ([] : List (List Nat × Nat × Nat)))
    else (zr.outbuf, buf, len, offset, [])
  match p1 with
  | (ob, buf1, len1, off1, log1) =>
    -- phase 2: submit all whole blocks straight from the chunk
    let p2 :=
      if len1 ≥ bs then
        (buf1.drop len1, 0, off1 + len1, [(buf1, off1, len1 / bs)])
      else (buf1, len1, off1, ([] : List (List Nat × Nat × Nat)))
    match p2 with
    | (buf2, len2, off2, log2) =>
      -- phase 3: store an incomplete tail block in outbuf
      let ob' := if len2 ≠ 0 then buf_overwrite ob 0 (buf2.take len2) else ob
      let off3 := if len2 ≠ 0 then off2 + len2 else off2
      let log := log1 ++ log2
      let ret : Nat := if log.any (fun e => σ e.1 e.2.1 e.2.2 ≠ 0) then 1 else 0
      ({ blocksize := bs, outbuf := ob', outoffset := off3 }, log, ret)

end Zsync

namespace Zsync

/-- C3: In the code, the hash used by `build_hash` and
`remove_block_from_hash` to place and locate block `i` is
`calc_rhash(z, blockhashes, i)`, which in the `seq_matches = 1` branch
XORs in `blockhashes[0].r.a` — block 0's weak `a` — instead of block
`i`'s own, so it differs from the claimed formula and from the hash the
matcher's lookup computes from the rolling sums of a window holding
block `i`'s content.  Concretely with `seq_matches = 1`,
`rsum_a_mask = 0xffff`, `blocksize = 1`, block 0 = byte `1` and block 1 =
byte `2`: `calc_rhash` for block 1 gives `10`, while both the claimed
formula `b₁ ^ ((a₁ & mask) << 3)` and the matcher's lookup hash over a
window equal to block 1 give `18`. -/
theorem C3_calc_rhash_uses_block_zero :
    calc_rhash 1 0xffff
      [rcksum_calc_rsum_block [1] 1, rcksum_calc_rsum_block [2] 1] 1 = 10 ∧
    lookup_hash 1 0xffff (rcksum_calc_rsum_block [2] 1) ⟨0, 0⟩ = 18 ∧
    ((rcksum_calc_rsum_block [2] 1).b ^^^
      (((rcksum_calc_rsum_block [2] 1).a &&& 0xffff) <<< BITHASHBITS)) = 18 ∧
    calc_rhash 1 0xffff
      [rcksum_calc_rsum_block [1] 1, rcksum_calc_rsum_block [2] 1] 1 ≠
    lookup_hash 1 0xffff (rcksum_calc_rsum_block [2] 1) ⟨0, 0⟩ := by
  refine ⟨rfl, rfl, rfl, ?_⟩
  decide

/-- C5: the parser stores `weak.b` byte-swapped (big-endian) but stores
`weak.a` as the raw little-endian 16-bit read, with no byte swap.  For a
`rsum_bytes = 3` record with `a`-byte `5` and `b`-bytes `0xAB 0xCD`, the
stored masked `weak.a` is `(256·5) & 0xff = 0`, not the record's `a` byte
`5` as the claim states (the `b` half comes out big-endian as claimed);
for a `rsum_bytes = 4` record with bytes `1 2 3 4` the stored `weak.a` is
`1 + 256·2 = 513`, not `256·1 + 2 = 258`. -/
theorem C5_weak_a_not_byteswapped :
    stored_weak 3 [5, 0xAB, 0xCD] = ⟨0, 0xABCD⟩ ∧
    (stored_weak 3 [5, 0xAB, 0xCD]).a ≠ 5 ∧
    stored_weak 4 [1, 2, 3, 4] = ⟨513, 0x0304⟩ ∧
    (stored_weak 4 [1, 2, 3, 4]).a ≠ 256 * 1 + 2 := by
  refine ⟨rfl, by decide, rfl, by decide⟩

/-- C7: with two URLs, after URL 0's fetch fails the guard
`status[0] !== 0` is still true (`1 !== 0`), so the next iteration that
randomly picks URL 0 fetches from it again; after URL 0 fails twice,
`ok_urls` reaches 0 and the loop terminates although URL 1 was never
attempted.  This contradicts the claim that a failed URL is never fetched
again and that the loop runs until every URL has failed. -/
theorem C7_failed_url_refetched :
    -- URL 0 has failed after the first iteration …
    (fetch_loop [(true, 0, (1 : Int))] (fetch_init 2)).status = [some 1] ∧
    -- … yet the guard that decides whether to fetch it again is still true …
    js_get (fetch_loop [(true, 0, (1 : Int))] (fetch_init 2)).status 0 ≠ some 0 ∧
    -- … so the second iteration fetches URL 0 a second time,
    (fetch_loop [(true, 0, (1 : Int)), (true, 0, (1 : Int))] (fetch_init 2)).attempts
      = [0, 0] ∧
    -- and the loop exits (ok_urls = 0) although URL 1 was never attempted.
    (fetch_loop [(true, 0, (1 : Int)), (true, 0, (1 : Int))] (fetch_init 2)).ok_urls = 0 ∧
    1 ∉ (fetch_loop [(true, 0, (1 : Int)), (true, 0, (1 : Int))] (fetch_init 2)).attempts := by
  refine ⟨rfl, by decide, rfl, rfl, by decide⟩

/-- C1: the strong-checksum check of `check_checksums_on_hash_chain`
accepts on *inequality*: the port turned the C `memcmp(...)` (truthy when
the sums differ) into `areEqual(...)` (truthy when they are equal)
without swapping the branches, so `ok` is set to `false` exactly when the
strong sums agree, and blocks are written when `ok` survives — i.e. when
the checked strong sum differs from the stored one.  (Moreover `areEqual`
compares the full 16-byte digest, length included, against the stored
`checksum_bytes`-byte sum, so with `checksum_bytes < 16` every weak hit
is accepted.)  Concretely on `demo_base` (one block, weak sums matching,
`checksum_bytes = 16`) with an MD4 oracle whose digest differs from the
stored sum, the candidate is accepted and its block written, where the
claim says no block may be written for it. -/
theorem C1_strong_check_accepts_on_mismatch :
    -- the window's weak sum matches the stored weak sum of block 0 …
    demo_base.blockhash_r.getD 0 ⟨0, 0⟩ = rcksum_calc_rsum_block [7] 1 ∧
    -- … the truncated strong sum of the window differs from the stored sum …
    (demo_md4_bad [7]).take demo_base.checksum_bytes ≠ List.replicate 16 1 ∧
    demo_base.blockhash_checksum.getD 0 none = some (List.replicate 16 1) ∧
    -- … and yet the candidate is accepted: its block is written and counted.
    (check_checksums_on_hash_chain demo_md4_bad (build_hash demo_base) 0 [7] false).1.written
      = [0] ∧
    (check_checksums_on_hash_chain demo_md4_bad (build_hash demo_base) 0 [7] false).2 = 1 := by
  refine ⟨rfl, by decide, rfl, by decide, by decide⟩

/-- C2: `remove_block_from_hash` never unlinks the node: the source walks
the chain with a *local* variable `p` and, on finding the node, assigns
`p = p.next` and returns (the C original wrote through a pointer to the
`next` field; the port writes only the local), leaving every bucket head
and every `next` pointer unchanged (first conjunct, for every state).
Hence after `rcksum_submit_blocks` persists block 0 of the one-block
session (built from `demo_base` by `build_hash`), block 0 is in
KnownRanges and still reachable in its weak-hash bucket chain — the
claimed chain-membership invariant is violated and a chain walk still
returns the removed block. -/
theorem C2_remove_leaves_chain_linked :
    (∀ (z : rcksum_state) (id : Nat),
        (remove_block_from_hash z id).rsum_hash = z.rsum_hash ∧
        (remove_block_from_hash z id).nexts = z.nexts) ∧
    (rcksum_submit_blocks demo_md4_ok (build_hash demo_base) [7] 0 0).2 = 0 ∧
    RMem (rcksum_submit_blocks demo_md4_ok (build_hash demo_base) [7] 0 0).1.ranges 0 ∧
    bucket_chain (rcksum_submit_blocks demo_md4_ok (build_hash demo_base) [7] 0 0).1
        (calc_rhash 1 0xffff
          (rcksum_submit_blocks demo_md4_ok (build_hash demo_base) [7] 0 0).1.blockhash_r 0)
      = [0] := by
  refine ⟨fun z id => ⟨rfl, rfl⟩, by decide, by decide, by decide⟩

/-- Helper: the per-id bookkeeping fold of `write_blocks` never touches
the `written` log. -/
theorem write_blocks_fold_written (ids : List Nat) (z : rcksum_state) :
    (ids.foldl
      (fun z id =>
        let z := remove_block_from_hash z id
        { z with ranges := add_to_ranges z.ranges id }) z).written = z.written := by
  induction ids generalizing z with
  | nil => rfl
  | cons id rest ih =>
      rw [List.foldl_cons, ih]
      rfl

/-- Helper: `write_blocks` appends exactly the ids of the inclusive range
`[bfrom, bto]` to the `written` log. -/
theorem write_blocks_written (z : rcksum_state) (bfrom : Nat) (bto : Int) :
    (write_blocks z bfrom bto).written
      = z.written ++ List.range' bfrom (bto + 1 - (bfrom : Int)).toNat := by
  unfold write_blocks
  rw [write_blocks_fold_written]

/-- Helper: when every block from `x` through `bto` verifies, the
verification loop of `rcksum_submit_blocks` reaches the end and writes
the whole range. -/
theorem submit_go_all_ok (md4 : List Nat → List Nat) (z : rcksum_state)
    (data : List Nat) (bfrom bto : Nat) :
    ∀ fuel x, x + fuel = bto + 1 →
      (∀ y, x ≤ y → y ≤ bto → block_ok md4 z data bfrom y) →
      submit_go md4 data bfrom bto z x fuel = (write_blocks z bfrom (bto : Int), 0) := by
  intro fuel
  induction fuel with
  | zero => intro x _ _; rfl
  | succ fuel ih =>
      intro x hx hall
      have hxle : x ≤ bto := by omega
      have hok := hall x le_rfl hxle
      unfold submit_go
      rw [if_neg (by simpa [block_ok] using hok)]
      exact ih (x + 1) (by omega) (fun y h1 h2 => hall y (by omega) h2)

/-- Helper: when block `b` fails verification and every earlier block
from `x` on verifies, the loop stops at `b`, writes the prefix when it is
nonempty, and returns `-1`. -/
theorem submit_go_first_bad (md4 : List Nat → List Nat) (z : rcksum_state)
    (data : List Nat) (bfrom bto b : Nat)
    (hbad : ¬ block_ok md4 z data bfrom b) (hbto : b ≤ bto) :
    ∀ fuel x, x + fuel = bto + 1 → x ≤ b →
      (∀ y, x ≤ y → y < b → block_ok md4 z data bfrom y) →
      submit_go md4 data bfrom bto z x fuel
        = (if bfrom < b then write_blocks z bfrom ((b : Int) - 1) else z, -1) := by
  intro fuel
  induction fuel with
  | zero => intro x hx hxb _; omega
  | succ fuel ih =>
      intro x hx hxb hpre
      by_cases hxe : x = b
      · subst hxe
        unfold submit_go
        rw [if_pos (by simpa [block_ok] using hbad)]
      · have hlt : x < b := by omega
        have hok := hpre x le_rfl hlt
        unfold submit_go
        rw [if_neg (by simpa [block_ok] using hok)]
        exact ih (x + 1) (by omega) (by omega) (fun y h1 h2 => hpre y (by omega) h2)

/-- C6: for a receive-path submit over `[bfrom, bto]`: if the truncated
strong sum of every block in the range matches its stored checksum, the
entire range is written (the call ends in `write_blocks z bfrom bto`,
appending all of `[bfrom, bto]` to the written log) and the call returns
`0`; otherwise, with `b` the first mismatching block, exactly the
already-verified prefix `[bfrom, b-1]` (possibly empty) is written and
the call returns `-1`, the corrupt-range error. -/
theorem C6_submit_blocks_verified_range (md4 : List Nat → List Nat)
    (z : rcksum_state) (data : List Nat) (bfrom bto : Nat) (hle : bfrom ≤ bto) :
    ((∀ x, bfrom ≤ x → x ≤ bto → block_ok md4 z data bfrom x) →
      rcksum_submit_blocks md4 z data bfrom bto = (write_blocks z bfrom (bto : Int), 0) ∧
      (rcksum_submit_blocks md4 z data bfrom bto).1.written
        = z.written ++ List.range' bfrom (bto + 1 - bfrom)) ∧
    (∀ b, bfrom ≤ b → b ≤ bto → ¬ block_ok md4 z data bfrom b →
      (∀ x, bfrom ≤ x → x < b → block_ok md4 z data bfrom x) →
      (rcksum_submit_blocks md4 z data bfrom bto).2 = -1 ∧
      (rcksum_submit_blocks md4 z data bfrom bto).1.written
        = z.written ++ List.range' bfrom (b - bfrom)) := by
  constructor
  · intro hall
    have h := submit_go_all_ok md4 z data bfrom bto (bto + 1 - bfrom) bfrom
      (by omega) (fun y h1 h2 => hall y h1 h2)
    refine ⟨h, ?_⟩
    rw [show rcksum_submit_blocks md4 z data bfrom bto
          = submit_go md4 data bfrom bto z bfrom (bto + 1 - bfrom) from rfl, h,
        write_blocks_written]
    congr 2
    omega
  · intro b hb1 hb2 hbad hpre
    have h := submit_go_first_bad md4 z data bfrom bto b hbad hb2
      (bto + 1 - bfrom) bfrom (by omega) hb1 (fun y h1 h2 => hpre y h1 h2)
    rw [show rcksum_submit_blocks md4 z data bfrom bto
          = submit_go md4 data bfrom bto z bfrom (bto + 1 - bfrom) from rfl, h]
    by_cases hlt : bfrom < b
    · rw [if_pos hlt]
      refine ⟨rfl, ?_⟩
      rw [write_blocks_written]
      congr 2
      omega
    · rw [if_neg hlt]
      refine ⟨rfl, ?_⟩
      have : b - bfrom = 0 := by omega
      rw [this]
      simp [List.range']

/-- C6 witness: the one-block session `demo_base` with the matching MD4
oracle: the block verifies, the whole range `[0, 0]` is written and the
call returns `0`; with the mismatching oracle nothing is written and the
call returns `-1`. -/
theorem C6_submit_blocks_witness :
    (rcksum_submit_blocks demo_md4_ok demo_base [7] 0 0).2 = 0 ∧
    (rcksum_submit_blocks demo_md4_ok demo_base [7] 0 0).1.written = [0] ∧
    (rcksum_submit_blocks demo_md4_bad demo_base [7] 0 0).2 = -1 ∧
    (rcksum_submit_blocks demo_md4_bad demo_base [7] 0 0).1.written = [] := by
  have hok := (C6_submit_blocks_verified_range demo_md4_ok demo_base [7] 0 0 le_rfl).1
    (by intro x h1 h2
        have hx : x = 0 := by omega
        subst hx
        decide)
  have hbad := (C6_submit_blocks_verified_range demo_md4_bad demo_base [7] 0 0 le_rfl).2
    0 le_rfl le_rfl (by decide) (by intro x h1 h2; omega)
  refine ⟨?_, ?_, hbad.1, ?_⟩
  · rw [hok.1]
  · rw [hok.2]; rfl
  · rw [hbad.2]; rfl

/-- C4: on a session with no known blocks, `zsync_needed_byte_ranges`
returns exactly one byte range `[0, blocks·blocksize - 1]` (first
conjunct, as the claim states).  On a session in which every block is
known, however, it does not return the empty list: for `blocks = 2`,
`blocksize = 2`, known ranges `[(0, 1)]`, `rcksum_needed_block_ranges`
computes its final `n = 0` but still returns the two-element array
`[2, 2]`, so `zsync_needed_byte_ranges` returns the single degenerate
range `[4, 3]` instead of `[]`. -/
theorem C4_needed_byte_ranges_empty_and_complete :
    (∀ blocks bs : Nat, 1 ≤ blocks → blocks ≤ 0x7fffffff →
        zsync_needed_byte_ranges blocks bs [] = [0, (blocks : Int) * bs - 1]) ∧
    zsync_needed_byte_ranges 2 2 [(0, 1)] = [4, 3] ∧
    zsync_needed_byte_ranges 2 2 [(0, 1)] ≠ [] := by
  refine ⟨?_, by decide, by decide⟩
  intro blocks bs _h1 h2
  simp only [zsync_needed_byte_ranges, rcksum_needed_block_ranges, nbr_loop,
    if_pos h2]
  simp [List.range, List.range.loop]

/-- C4 witness: one block of size 4, nothing known: the needed byte
ranges are exactly `[0, 3]`. -/
theorem C4_needed_byte_ranges_witness :
    zsync_needed_byte_ranges 1 4 [] = [0, 3] := by
  have h := C4_needed_byte_ranges_empty_and_complete.1 1 4 (by decide) (by decide)
  simpa using h

/-- C8: `zsync_complete` first truncates the scratch file to exactly
`filelen`; then with a SHA-1 header present it returns `1` (VERIFIED)
exactly when the digest of the truncated file equals the header value and
`-1` (CORRUPT) when it differs, and with no SHA-1 header it returns `0`
(UNCHECKED) without failing. -/
theorem C8_complete_truncate_then_sha1 (sha1hex : List Nat → String)
    (content : List Nat) (filelen : Nat) (checksum : Option String)
    (method : String) :
    (zsync_complete sha1hex content filelen checksum method).2 =
      truncate_file content filelen ∧
    (zsync_complete sha1hex content filelen checksum method).2.length = filelen ∧
    (∀ c, checksum = some c → method = "SHA-1" →
      (((zsync_complete sha1hex content filelen checksum method).1 = 1) ↔
        c = sha1hex (truncate_file content filelen)) ∧
      (((zsync_complete sha1hex content filelen checksum method).1 = -1) ↔
        c ≠ sha1hex (truncate_file content filelen))) ∧
    (checksum = none →
      (zsync_complete sha1hex content filelen checksum method).1 = 0) := by
  refine ⟨?_, ?_, ?_, ?_⟩
  · cases checksum with
    | none => rfl
    | some c =>
        simp only [zsync_complete]
        split <;> rfl
  · cases checksum with
    | none =>
        simp [zsync_complete, truncate_file]
        omega
    | some c =>
        simp only [zsync_complete]
        split <;> · simp [truncate_file]; omega
  · rintro c rfl rfl
    simp only [zsync_complete, zsync_sha1]
    constructor
    · constructor
      · intro h
        by_contra hne
        simp [hne] at h
      · intro h; simp [h]
    · constructor
      · intro h
        intro he
        simp [he] at h
      · intro h; simp [h]
  · rintro rfl
    rfl

/-- C8 witness: a concrete run of `zsync_complete` with a matching SHA-1
header returns `1`. -/
theorem C8_complete_witness :
    (zsync_complete (fun _ => "d") [1, 2, 3] 2 (some "d") "SHA-1").1 = 1 := by
  exact ((C8_complete_truncate_then_sha1 (fun _ => "d") [1, 2, 3] 2
    (some "d") "SHA-1").2.2.1 "d" rfl rfl).1.mpr rfl

/-- Helper: `getD` at an in-bounds index is the indexed element. -/
theorem getD_eq_elem (l : List (Nat × Nat)) (d : Nat × Nat) {i : Nat}
    (h : i < l.length) : l.getD i d = l[i] := by
  simp [List.getD_eq_getElem?_getD, List.getElem?_eq_getElem h]

/-- Helper: unpacking `Canonical` at a cons cell. -/
theorem canonical_cons {p : Nat × Nat} {t : List (Nat × Nat)}
    (h : Canonical (p :: t)) :
    p.1 ≤ p.2 ∧ (∀ q ∈ t, p.2 + 1 < q.1) ∧ Canonical t := by
  obtain ⟨hwf, hpw⟩ := h
  rw [List.pairwise_cons] at hpw
  exact ⟨hwf p (by simp), hpw.1, fun q hq => hwf q (by simp [hq]), hpw.2⟩

/-- Helper: ordering of the interval ends across a canonical list, via
`getD`. -/
theorem canonical_getD_lt (l : List (Nat × Nat)) (hC : Canonical l)
    {i j : Nat} (hij : i < j) (hj : j < l.length) :
    (l.getD i (0, 0)).2 + 1 < (l.getD j (0, 0)).1 := by
  rw [getD_eq_elem l (0, 0) (by omega), getD_eq_elem l (0, 0) hj]
  have hpw := hC.2
  rw [List.pairwise_iff_get] at hpw
  exact hpw ⟨i, by omega⟩ ⟨j, hj⟩ hij

/-- Helper: every pair of a canonical list is a nonempty interval, via
`getD`. -/
theorem canonical_getD_wf (l : List (Nat × Nat)) (hC : Canonical l)
    {i : Nat} (hi : i < l.length) :
    (l.getD i (0, 0)).1 ≤ (l.getD i (0, 0)).2 := by
  rw [getD_eq_elem l (0, 0) hi]
  exact hC.1 _ (l.getElem_mem hi)

/-- Helper: membership in a cons cell of the range list. -/
theorem RMem_cons {p : Nat × Nat} {t : List (Nat × Nat)} {x : Nat} :
    RMem (p :: t) x ↔ (p.1 ≤ x ∧ x ≤ p.2) ∨ RMem t x := by
  simp [RMem]

/-- Helper: `countBelow` at a cons cell. -/
theorem countBelow_cons {p : Nat × Nat} {t : List (Nat × Nat)} {x : Nat} :
    countBelow (p :: t) x
      = (if p.2 < x then 1 else 0) + countBelow t x := by
  simp only [countBelow, List.filter_cons]
  by_cases h : p.2 < x
  · simp [h, Nat.add_comm]
  · simp [h]

/-- Helper: `countBelow` vanishes when no range ends below `x`. -/
theorem countBelow_eq_zero {l : List (Nat × Nat)} {x : Nat}
    (h : ∀ q ∈ l, ¬ q.2 < x) : countBelow l x = 0 := by
  simp only [countBelow, List.length_eq_zero]
  exact List.filter_eq_nil_iff.mpr (fun q hq => by simpa using h q hq)

/-- Helper: `countBelow` is bounded by the list length. -/
theorem countBelow_le_length (l : List (Nat × Nat)) (x : Nat) :
    countBelow l x ≤ l.length :=
  List.length_filter_le _ l

/-- Helper: `countBelow` equals `mn` when exactly the first `mn` ranges
end below `x`. -/
theorem countBelow_eq_of_window (l : List (Nat × Nat)) (x : Nat) :
    ∀ mn : Nat, mn ≤ l.length →
      (∀ i, i < mn → (l.getD i (0, 0)).2 < x) →
      (∀ i, mn ≤ i → i < l.length → ¬ (l.getD i (0, 0)).2 < x) →
      countBelow l x = mn := by
  induction l with
  | nil =>
      intro mn h _ _
      simp only [List.length_nil] at h
      have hmn : mn = 0 := by omega
      subst hmn
      rfl
  | cons p t ih =>
      intro mn hmn hlow hhigh
      cases mn with
      | zero =>
          have h0 : ¬ p.2 < x := by simpa using hhigh 0 (by omega) (by simp)
          rw [countBelow_cons, if_neg h0]
          have : countBelow t x = 0 := by
            refine ih 0 (by omega) (by omega) ?_
            intro i _ hi
            simpa using hhigh (i + 1) (by omega) (by simpa using Nat.succ_lt_succ hi)
          omega
      | succ m =>
          have h0 : p.2 < x := by simpa using hlow 0 (by omega)
          rw [countBelow_cons, if_pos h0]
          have : countBelow t x = m := by
            refine ih m (by simpa using hmn) ?_ ?_
            · intro i hi
              simpa using hlow (i + 1) (by omega)
            · intro i h1 h2
              simpa using hhigh (i + 1) (by omega) (by simpa using Nat.succ_lt_succ h2)
          omega

/-- Helper: `x` is in no range when the ranges split into those ending
below `x` and those starting above it. -/
theorem not_RMem_of_window (l : List (Nat × Nat)) (x : Nat) (mn : Nat)
    (hlow : ∀ i, i < mn → (l.getD i (0, 0)).2 < x)
    (hhigh : ∀ i, mn ≤ i → i < l.length → x < (l.getD i (0, 0)).1) :
    ¬ RMem l x := by
  rintro ⟨q, hq, hq1, hq2⟩
  obtain ⟨i, hi, hqi⟩ := List.getElem_of_mem hq
  rcases Nat.lt_or_ge i mn with h | h
  · have := hlow i h
    rw [getD_eq_elem l (0, 0) hi, hqi] at this
    omega
  · have := hhigh i h hi
    rw [getD_eq_elem l (0, 0) hi, hqi] at this
    omega

/-- Helper: correctness of the bisection loop `rbb_go` on a canonical
range list: given a window invariant (everything left of `mn` ends below
`x`, everything right of `mx` starts above `x`) and enough fuel, the loop
returns `-1` iff `x` is inside some range, and otherwise the number of
ranges below `x`. -/
theorem rbb_go_correct (l : List (Nat × Nat)) (x : Nat) (hC : Canonical l) :
    ∀ (fuel : Nat) (mn mx : Int), 0 ≤ mn → mn ≤ mx + 1 → mx < (l.length : Int) →
      (mx + 1 - mn).toNat ≤ fuel →
      (∀ i : Nat, i < l.length → (i : Int) < mn → (l.getD i (0, 0)).2 < x) →
      (∀ i : Nat, i < l.length → mx < (i : Int) → x < (l.getD i (0, 0)).1) →
      rbb_go l x mn mx fuel = if RMem l x then -1 else (countBelow l x : Int) := by
  intro fuel
  induction fuel with
  | zero =>
      intro mn mx h0 h1 h2 hfuel hlow hhigh
      have hmn : mn = mx + 1 := by omega
      have hnot : ¬ RMem l x := by
        refine not_RMem_of_window l x mn.toNat (fun i hi => ?_) (fun i hge hi => ?_)
        · by_cases hil : i < l.length
          · exact hlow i hil (by omega)
          · rw [List.getD_eq_default _ _ (by omega)]
            omega
        · exact hhigh i hi (by omega)
      rw [if_neg hnot]
      have hcb : countBelow l x = mn.toNat := by
        refine countBelow_eq_of_window l x mn.toNat (by omega)
          (fun i hi => hlow i (by omega) (by omega)) (fun i hge hi => ?_)
        have := hhigh i hi (by omega)
        have := canonical_getD_wf l hC hi
        omega
      rw [rbb_go, hcb]
      omega
  | succ fuel ih =>
      intro mn mx h0 h1 h2 hfuel hlow hhigh
      by_cases hmm : mn ≤ mx
      case neg =>
        have hmn : mn = mx + 1 := by omega
        have hnot : ¬ RMem l x := by
          refine not_RMem_of_window l x mn.toNat (fun i hi => ?_) (fun i hge hi => ?_)
          · by_cases hil : i < l.length
            · exact hlow i hil (by omega)
            · rw [List.getD_eq_default _ _ (by omega)]
              omega
          · exact hhigh i hi (by omega)
        rw [if_neg hnot]
        have hcb : countBelow l x = mn.toNat := by
          refine countBelow_eq_of_window l x mn.toNat (by omega)
            (fun i hi => hlow i (by omega) (by omega)) (fun i hge hi => ?_)
          have := hhigh i hi (by omega)
          have := canonical_getD_wf l hC hi
          omega
        rw [rbb_go, if_neg hmm, hcb]
        omega
      case pos =>
        have hr0 : mn ≤ (mx + mn) / 2 := by omega
        have hr1 : (mx + mn) / 2 ≤ mx := by omega
        have hrlen : ((mx + mn) / 2).toNat < l.length := by omega
        rw [rbb_go, if_pos hmm]
        by_cases hgt : x > (l.getD ((mx + mn) / 2).toNat (0, 0)).2
        · rw [if_pos hgt]
          refine ih ((mx + mn) / 2 + 1) mx (by omega) (by omega) h2 (by omega)
            (fun i hi hlt => ?_) hhigh
          by_cases him : (i : Int) < mn
          · exact hlow i hi him
          · rcases Nat.lt_or_ge i ((mx + mn) / 2).toNat with hc | hc
            · have hij := canonical_getD_lt l hC hc hrlen
              have hwf := canonical_getD_wf l hC hrlen
              omega
            · have : i = ((mx + mn) / 2).toNat := by omega
              rw [this]
              omega
        · rw [if_neg hgt]
          by_cases hlt : x < (l.getD ((mx + mn) / 2).toNat (0, 0)).1
          · rw [if_pos hlt]
            refine ih mn ((mx + mn) / 2 - 1) h0 (by omega) (by omega) (by omega)
              hlow (fun i hi hgt2 => ?_)
            by_cases him : mx < (i : Int)
            · exact hhigh i hi him
            · rcases Nat.lt_or_ge ((mx + mn) / 2).toNat i with hc | hc
              · have hij := canonical_getD_lt l hC hc hi
                have hwf := canonical_getD_wf l hC hrlen
                omega
              · have : i = ((mx + mn) / 2).toNat := by omega
                rw [this]
                omega
          · rw [if_neg hlt]
            have hmem : RMem l x := by
              refine ⟨l[((mx + mn) / 2).toNat], List.getElem_mem hrlen, ?_⟩
              rw [← getD_eq_elem l (0, 0) hrlen]
              omega
            rw [if_pos hmem]

/-- Helper: correctness of `range_before_block` on a canonical range
list. -/
theorem range_before_block_correct (l : List (Nat × Nat)) (x : Nat)
    (hC : Canonical l) :
    range_before_block l x = if RMem l x then -1 else (countBelow l x : Int) := by
  refine rbb_go_correct l x hC (l.length + 1) 0 ((l.length : Int) - 1)
    (by omega) (by omega) (by omega) (by omega) (by omega) (fun i hi hgt => ?_)
  omega

/-- Helper: inserting a block that is already known leaves the range list
unchanged. -/
theorem add_of_mem (l : List (Nat × Nat)) (x : Nat) (hC : Canonical l)
    (h : RMem l x) : add_to_ranges l x = l := by
  simp only [add_to_ranges]
  rw [range_before_block_correct l x hC, if_pos h]
  simp

/-- Helper: inserting into the empty range list creates a singleton. -/
theorem add_nil (x : Nat) : add_to_ranges [] x = [(x, x)] := by
  rfl

/-- Helper: structural recursion equation for `add_to_ranges` on a
canonical cons cell: before the head it extends or inserts, inside the
head it is the identity, just after the head it extends the head and may
merge with the next range, and beyond that it passes the head through. -/
theorem add_cons_eq (p : Nat × Nat) (t : List (Nat × Nat)) (x : Nat)
    (hC : Canonical (p :: t)) :
    add_to_ranges (p :: t) x =
      if x < p.1 then
        (if p.1 = x + 1 then (x, p.2) :: t else (x, x) :: p :: t)
      else if x ≤ p.2 then p :: t
      else if x = p.2 + 1 then
        (match t with
         | [] => [(p.1, x)]
         | q :: t' => if q.1 = x + 1 then (p.1, q.2) :: t' else (p.1, x) :: q :: t')
      else p :: add_to_ranges t x := by
  obtain ⟨hwf, hsep, hCt⟩ := canonical_cons hC
  by_cases h1 : x < p.1
  · -- before the head: the gap index is 0
    have hnot : ¬ RMem (p :: t) x := by
      rw [RMem_cons]
      rintro (⟨ha, _⟩ | ⟨q, hq, ha, _⟩)
      · omega
      · have := hsep q hq
        omega
    have hcb : countBelow (p :: t) x = 0 := by
      refine countBelow_eq_zero ?_
      intro q hq
      rcases List.mem_cons.mp hq with rfl | hq'
      · omega
      · have h2 := hsep q hq'
        have h3 := hCt.1 q hq'
        omega
    rw [if_pos h1]
    simp only [add_to_ranges]
    rw [range_before_block_correct _ _ hC, if_neg hnot, hcb]
    rw [if_neg (by omega : ¬ (((0 : Nat) : Int)) = -1)]
    simp only [Int.toNat_natCast]
    rw [if_neg (by simp), if_neg (by simp)]
    by_cases h2 : p.1 = x + 1
    · rw [if_pos ⟨by simp, by simpa using h2⟩, if_pos h2]
      simp
    · rw [if_neg (fun hcon => h2 (by simpa using hcon.2)), if_neg h2]
      simp
  · by_cases h2 : x ≤ p.2
    · -- inside the head range
      have hmem : RMem (p :: t) x := RMem_cons.mpr (Or.inl ⟨by omega, h2⟩)
      rw [if_neg h1, if_pos h2]
      exact add_of_mem _ _ hC hmem
    · by_cases h3 : x = p.2 + 1
      · -- immediately after the head: the gap index is 1
        have hnot : ¬ RMem (p :: t) x := by
          rw [RMem_cons]
          rintro (⟨_, hb⟩ | ⟨q, hq, ha, _⟩)
          · omega
          · have := hsep q hq
            omega
        have hcb : countBelow (p :: t) x = 1 := by
          rw [countBelow_cons, if_pos (by omega)]
          have : countBelow t x = 0 := by
            refine countBelow_eq_zero ?_
            intro q hq
            have h4 := hsep q hq
            have h5 := hCt.1 q hq
            omega
          omega
        rw [if_neg h1, if_neg h2, if_pos h3]
        simp only [add_to_ranges]
        rw [range_before_block_correct _ _ hC, if_neg hnot, hcb]
        rw [if_neg (by omega : ¬ (((1 : Nat) : Int)) = -1)]
        simp only [Int.toNat_natCast]
        cases t with
        | nil =>
            rw [if_neg (by simp)]
            rw [if_pos ⟨by omega, by simp, by simpa using h3.symm⟩]
            simp
        | cons q t' =>
            by_cases hq : q.1 = x + 1
            · rw [if_pos ⟨by omega, by simp, by simpa using h3.symm, by simpa using hq⟩]
              simp [hq]
            · rw [if_neg (fun hcon => hq (by simpa using hcon.2.2.2))]
              rw [if_pos ⟨by omega, by simp, by simpa using h3.symm⟩]
              simp [hq]
      · -- strictly beyond the head and its successor: pass the head through
        have h4 : p.2 + 1 < x := by omega
        rw [if_neg h1, if_neg h2, if_neg h3]
        by_cases hm : RMem t x
        · have hmem : RMem (p :: t) x := RMem_cons.mpr (Or.inr hm)
          rw [add_of_mem _ _ hC hmem, add_of_mem t x hCt hm]
        · have hnot : ¬ RMem (p :: t) x := by
            rw [RMem_cons]
            rintro (⟨_, hb⟩ | hm')
            · omega
            · exact hm hm'
          have hcbc : countBelow (p :: t) x = countBelow t x + 1 := by
            rw [countBelow_cons, if_pos (by omega)]
            omega
          have hk' : countBelow t x ≤ t.length := countBelow_le_length t x
          simp only [add_to_ranges]
          rw [range_before_block_correct _ _ hC, range_before_block_correct t x hCt,
            if_neg hnot, if_neg hm, hcbc]
          rw [if_neg (by omega : ¬ ((countBelow t x + 1 : Nat) : Int) = -1),
            if_neg (by omega : ¬ ((countBelow t x : Nat) : Int) = -1)]
          simp only [Int.toNat_natCast]
          obtain ⟨m, hgen⟩ : ∃ m, countBelow t x = m := ⟨_, rfl⟩
          rw [hgen] at hk' ⊢
          cases m with
          | zero =>
              rw [if_neg (fun hcon => by
                    have h5 : p.2 + 1 = x := by simpa using hcon.2.2.1
                    omega)]
              rw [if_neg (fun hcon => by
                    have h5 : p.2 + 1 = x := by simpa using hcon.2.2
                    omega)]
              by_cases hea : 0 < t.length ∧ (t.getD 0 (0, 0)).1 = x + 1
              · rw [if_pos ⟨by simp [List.length_cons]; omega, by simpa using hea.2⟩]
                rw [if_neg (by simp), if_neg (by simp), if_pos hea]
                simp
              · rw [if_neg (fun hcon => hea
                    ⟨by have h5 := hcon.1; simp [List.length_cons] at h5; omega,
                     by simpa using hcon.2⟩)]
                rw [if_neg (by simp), if_neg (by simp), if_neg hea]
                simp
          | succ m₀ =>
              have ht0 : t.length ≠ 0 := by omega
              by_cases hc1 : m₀ + 1 < t.length
              · by_cases hc2 : (t.getD m₀ (0, 0)).2 + 1 = x
                · by_cases hc3 : (t.getD (m₀ + 1) (0, 0)).1 = x + 1
                  · rw [if_pos ⟨by simp, by simp [List.length_cons]; omega,
                        by simpa using hc2, by simpa using hc3⟩]
                    rw [if_pos ⟨by simp, hc1, hc2, hc3⟩]
                    simp
                  · rw [if_neg (fun hcon => hc3 (by simpa using hcon.2.2.2))]
                    rw [if_pos ⟨by simp, by simp, by simpa using hc2⟩]
                    rw [if_neg (fun hcon => hc3 hcon.2.2.2)]
                    rw [if_pos ⟨by simp, ht0, hc2⟩]
                    simp
                · by_cases hc3 : (t.getD (m₀ + 1) (0, 0)).1 = x + 1
                  · rw [if_neg (fun hcon => hc2 (by simpa using hcon.2.2.1))]
                    rw [if_neg (fun hcon => hc2 (by simpa using hcon.2.2))]
                    rw [if_pos ⟨by simp [List.length_cons]; omega, by simpa using hc3⟩]
                    rw [if_neg (fun hcon => hc2 hcon.2.2.1)]
                    rw [if_neg (fun hcon => hc2 hcon.2.2)]
                    rw [if_pos ⟨hc1, hc3⟩]
                    simp
                  · rw [if_neg (fun hcon => hc2 (by simpa using hcon.2.2.1))]
                    rw [if_neg (fun hcon => hc2 (by simpa using hcon.2.2))]
                    rw [if_neg (fun hcon => hc3 (by simpa using hcon.2))]
                    rw [if_neg (fun hcon => hc2 hcon.2.2.1)]
                    rw [if_neg (fun hcon => hc2 hcon.2.2)]
                    rw [if_neg (fun hcon => hc3 hcon.2)]
                    simp
              · by_cases hc2 : (t.getD m₀ (0, 0)).2 + 1 = x
                · rw [if_neg (fun hcon => by
                      have h5 := hcon.2.1
                      simp [List.length_cons] at h5
                      omega)]
                  rw [if_pos ⟨by simp, by simp, by simpa using hc2⟩]
                  rw [if_neg (fun hcon => hc1 hcon.2.1)]
                  rw [if_pos ⟨by simp, ht0, hc2⟩]
                  simp
                · rw [if_neg (fun hcon => hc2 (by simpa using hcon.2.2.1))]
                  rw [if_neg (fun hcon => hc2 (by simpa using hcon.2.2))]
                  rw [if_neg (fun hcon => by
                      have h5 := hcon.1
                      simp [List.length_cons] at h5
                      omega)]
                  rw [if_neg (fun hcon => hc2 hcon.2.2.1)]
                  rw [if_neg (fun hcon => hc2 hcon.2.2)]
                  rw [if_neg (fun hcon => hc1 hcon.1)]
                  simp

/-- Helper: the set of blocks covered after `add_to_ranges` is the old
set plus `x`. -/
theorem RMem_add (l : List (Nat × Nat)) (x : Nat) (hC : Canonical l) :
    ∀ z, RMem (add_to_ranges l x) z ↔ (RMem l z ∨ z = x) := by
  induction l with
  | nil =>
      intro z
      rw [add_nil]
      simp [RMem]
      omega
  | cons p t ih =>
      intro z
      obtain ⟨hwf, hsep, hCt⟩ := canonical_cons hC
      rw [add_cons_eq p t x hC]
      by_cases h1 : x < p.1
      · by_cases h2 : p.1 = x + 1
        · rw [if_pos h1, if_pos h2]
          simp only [RMem_cons]
          constructor
          · rintro (⟨ha, hb⟩ | hmem)
            · rcases Nat.lt_or_ge z p.1 with hz | hz
              · exact Or.inr (by omega)
              · exact Or.inl (Or.inl ⟨hz, hb⟩)
            · exact Or.inl (Or.inr hmem)
          · rintro ((⟨ha, hb⟩ | hmem) | rfl)
            · exact Or.inl ⟨by omega, hb⟩
            · exact Or.inr hmem
            · exact Or.inl ⟨le_rfl, by omega⟩
        · rw [if_pos h1, if_neg h2]
          simp only [RMem_cons]
          constructor
          · rintro (⟨ha, hb⟩ | hr)
            · exact Or.inr (by omega)
            · exact Or.inl hr
          · rintro (hr | rfl)
            · exact Or.inr hr
            · exact Or.inl ⟨le_rfl, le_rfl⟩
      · by_cases h2 : x ≤ p.2
        · rw [if_neg h1, if_pos h2]
          constructor
          · exact Or.inl
          · rintro (hr | rfl)
            · exact hr
            · exact RMem_cons.mpr (Or.inl ⟨by omega, h2⟩)
        · by_cases h3 : x = p.2 + 1
          · rw [if_neg h1, if_neg h2, if_pos h3]
            subst h3
            cases t with
            | nil =>
                dsimp only
                simp [RMem]
                omega
            | cons q t' =>
                obtain ⟨hqwf, hqsep, hCt'⟩ := canonical_cons hCt
                have hql := hsep q (by simp)
                dsimp only
                by_cases hq : q.1 = p.2 + 1 + 1
                · rw [if_pos hq]
                  simp only [RMem_cons]
                  constructor
                  · rintro (⟨ha, hb⟩ | hr)
                    · rcases Nat.lt_or_ge z (p.2 + 1) with hz | hz
                      · exact Or.inl (Or.inl ⟨ha, by omega⟩)
                      · rcases Nat.lt_or_ge z q.1 with hz' | hz'
                        · exact Or.inr (by omega)
                        · exact Or.inl (Or.inr (Or.inl ⟨hz', hb⟩))
                    · exact Or.inl (Or.inr (Or.inr hr))
                  · rintro ((⟨ha, hb⟩ | ⟨ha, hb⟩ | hr) | rfl)
                    · exact Or.inl ⟨ha, by omega⟩
                    · exact Or.inl ⟨by omega, hb⟩
                    · exact Or.inr hr
                    · exact Or.inl ⟨by omega, by omega⟩
                · rw [if_neg hq]
                  simp only [RMem_cons]
                  constructor
                  · rintro (⟨ha, hb⟩ | hr)
                    · rcases Nat.lt_or_ge z (p.2 + 1) with hz | hz
                      · exact Or.inl (Or.inl ⟨ha, by omega⟩)
                      · exact Or.inr (by omega)
                    · exact Or.inl (Or.inr hr)
                  · rintro ((⟨ha, hb⟩ | hr) | rfl)
                    · exact Or.inl ⟨ha, by omega⟩
                    · exact Or.inr hr
                    · exact Or.inl ⟨by omega, le_rfl⟩
          · have h4 : p.2 + 1 < x := by omega
            rw [if_neg h1, if_neg h2, if_neg h3]
            simp only [RMem_cons, ih hCt z]
            tauto

/-- Helper: `add_to_ranges` preserves the canonical invariant (hence the
sortedness and disjointness of the stored range list). -/
theorem canonical_add (l : List (Nat × Nat)) (x : Nat) (hC : Canonical l) :
    Canonical (add_to_ranges l x) := by
  induction l with
  | nil =>
      rw [add_nil]
      exact ⟨by simp, by simp⟩
  | cons p t ih =>
      obtain ⟨hwf, hsep, hCt⟩ := canonical_cons hC
      rw [add_cons_eq p t x hC]
      by_cases h1 : x < p.1
      · by_cases h2 : p.1 = x + 1
        · rw [if_pos h1, if_pos h2]
          refine ⟨?_, ?_⟩
          · intro q hq
            rcases List.mem_cons.mp hq with rfl | hq'
            · simp
              omega
            · exact hC.1 q (by simp [hq'])
          · rw [List.pairwise_cons]
            refine ⟨fun q hq => ?_, hCt.2⟩
            have := hsep q hq
            simpa using this
        · rw [if_pos h1, if_neg h2]
          refine ⟨?_, ?_⟩
          · intro q hq
            rcases List.mem_cons.mp hq with rfl | hq'
            · simp
            · exact hC.1 q hq'
          · rw [List.pairwise_cons]
            refine ⟨fun q hq => ?_, hC.2⟩
            rcases List.mem_cons.mp hq with rfl | hq'
            · simp
              omega
            · have := hsep q hq'
              simp
              omega
      · by_cases h2 : x ≤ p.2
        · rw [if_neg h1, if_pos h2]
          exact hC
        · by_cases h3 : x = p.2 + 1
          · rw [if_neg h1, if_neg h2, if_pos h3]
            subst h3
            cases t with
            | nil =>
                dsimp only
                refine ⟨?_, by simp⟩
                intro q hq
                rcases List.mem_cons.mp hq with rfl | hq'
                · simp
                  omega
                · simp at hq'
            | cons q t' =>
                obtain ⟨hqwf, hqsep, hCt'⟩ := canonical_cons hCt
                have hql := hsep q (by simp)
                dsimp only
                by_cases hq : q.1 = p.2 + 1 + 1
                · rw [if_pos hq]
                  refine ⟨?_, ?_⟩
                  · intro r hr
                    rcases List.mem_cons.mp hr with rfl | hr'
                    · simp
                      omega
                    · exact hCt'.1 r hr'
                  · rw [List.pairwise_cons]
                    refine ⟨fun r hr => ?_, hCt'.2⟩
                    have := hqsep r hr
                    simpa using this
                · rw [if_neg hq]
                  refine ⟨?_, ?_⟩
                  · intro r hr
                    rcases List.mem_cons.mp hr with rfl | hr'
                    · simp
                      omega
                    · exact hCt.1 r hr'
                  · rw [List.pairwise_cons]
                    refine ⟨fun r hr => ?_, hCt.2⟩
                    rcases List.mem_cons.mp hr with rfl | hr'
                    · simp
                      omega
                    · have := hqsep r hr'
                      have := hqwf
                      simp
                      omega
          · have h4 : p.2 + 1 < x := by omega
            rw [if_neg h1, if_neg h2, if_neg h3]
            have hca := ih hCt
            refine ⟨?_, ?_⟩
            · intro q hq
              rcases List.mem_cons.mp hq with rfl | hq'
              · exact hwf
              · exact hca.1 q hq'
            · rw [List.pairwise_cons]
              refine ⟨fun q hq => ?_, hca.2⟩
              have hq1 : RMem (add_to_ranges t x) q.1 := ⟨q, hq, le_rfl, hca.1 q hq⟩
              rw [RMem_add t x hCt q.1] at hq1
              rcases hq1 with ⟨r, hr, hr1, _⟩ | rfl
              · have := hsep r hr
                omega
              · omega

/-- Helper: two canonical range lists covering the same blocks are
equal. -/
theorem canonical_ext : ∀ (l₁ l₂ : List (Nat × Nat)), Canonical l₁ → Canonical l₂ →
    (∀ z, RMem l₁ z ↔ RMem l₂ z) → l₁ = l₂ := by
  intro l₁
  induction l₁ with
  | nil =>
      intro l₂ _ h₂ h
      cases l₂ with
      | nil => rfl
      | cons q t₂ =>
          exfalso
          have hm : RMem (q :: t₂) q.1 :=
            RMem_cons.mpr (Or.inl ⟨le_rfl, (canonical_cons h₂).1⟩)
          have h0 := (h q.1).mpr hm
          simp [RMem] at h0
  | cons p t₁ ih =>
      intro l₂ h₁ h₂ h
      obtain ⟨hwf₁, hsep₁, hCt₁⟩ := canonical_cons h₁
      cases l₂ with
      | nil =>
          exfalso
          have hm : RMem (p :: t₁) p.1 := RMem_cons.mpr (Or.inl ⟨le_rfl, hwf₁⟩)
          have h0 := (h p.1).mp hm
          simp [RMem] at h0
      | cons q t₂ =>
          obtain ⟨hwf₂, hsep₂, hCt₂⟩ := canonical_cons h₂
          have hq1 : q.1 ≤ p.1 := by
            have hm := (h p.1).mp (RMem_cons.mpr (Or.inl ⟨le_rfl, hwf₁⟩))
            rcases RMem_cons.mp hm with ⟨ha, _⟩ | ⟨r, hr, hra, _⟩
            · exact ha
            · have := hsep₂ r hr
              omega
          have hp1 : p.1 ≤ q.1 := by
            have hm := (h q.1).mpr (RMem_cons.mpr (Or.inl ⟨le_rfl, hwf₂⟩))
            rcases RMem_cons.mp hm with ⟨ha, _⟩ | ⟨r, hr, hra, _⟩
            · exact ha
            · have := hsep₁ r hr
              omega
          have hgt₁ : ¬ p.2 < q.2 := by
            intro hlt
            have hmm : RMem (q :: t₂) (p.2 + 1) :=
              RMem_cons.mpr (Or.inl ⟨by omega, by omega⟩)
            have hm := (h (p.2 + 1)).mpr hmm
            rcases RMem_cons.mp hm with ⟨_, hb⟩ | ⟨r, hr, hra, _⟩
            · omega
            · have := hsep₁ r hr
              omega
          have hgt₂ : ¬ q.2 < p.2 := by
            intro hlt
            have hmm : RMem (p :: t₁) (q.2 + 1) :=
              RMem_cons.mpr (Or.inl ⟨by omega, by omega⟩)
            have hm := (h (q.2 + 1)).mp hmm
            rcases RMem_cons.mp hm with ⟨_, hb⟩ | ⟨r, hr, hra, _⟩
            · omega
            · have := hsep₂ r hr
              omega
          have hpq : p = q := Prod.ext (by omega) (by omega)
          subst hpq
          have ht : ∀ z, RMem t₁ z ↔ RMem t₂ z := by
            intro z
            constructor
            · intro hz
              obtain ⟨r, hr, hra, hrb⟩ := hz
              have hzgt : p.2 + 1 < z := by
                have := hsep₁ r hr
                omega
              have hm := (h z).mp (RMem_cons.mpr (Or.inr ⟨r, hr, hra, hrb⟩))
              rcases RMem_cons.mp hm with ⟨_, hb⟩ | hm'
              · omega
              · exact hm'
            · intro hz
              obtain ⟨r, hr, hra, hrb⟩ := hz
              have hzgt : p.2 + 1 < z := by
                have := hsep₂ r hr
                omega
              have hm := (h z).mpr (RMem_cons.mpr (Or.inr ⟨r, hr, hra, hrb⟩))
              rcases RMem_cons.mp hm with ⟨_, hb⟩ | hm'
              · omega
              · exact hm'
          rw [ih t₂ hCt₁ hCt₂ ht]

/-- C9: on a canonical (sorted, disjoint) range list — the invariant the
code maintains from the empty initial state — `add_to_ranges` commutes
(`insert x; insert y` equals `insert y; insert x` as lists), is
idempotent (`insert x; insert x` equals `insert x`), and preserves
canonicity, hence the sortedness and strict disjointness of the stored
range list (last conjunct). -/
theorem C9_add_to_ranges_comm_idem (l : List (Nat × Nat)) (x y : Nat)
    (hC : Canonical l) :
    add_to_ranges (add_to_ranges l x) y = add_to_ranges (add_to_ranges l y) x ∧
    add_to_ranges (add_to_ranges l x) x = add_to_ranges l x ∧
    Canonical (add_to_ranges l x) ∧
    (add_to_ranges l x).Pairwise (fun p q => p.2 < q.1) := by
  have hcx := canonical_add l x hC
  have hcy := canonical_add l y hC
  refine ⟨?_, ?_, hcx, ?_⟩
  · refine canonical_ext _ _ (canonical_add _ y hcx) (canonical_add _ x hcy) ?_
    intro z
    rw [RMem_add _ y hcx z, RMem_add l x hC z, RMem_add _ x hcy z, RMem_add l y hC z]
    tauto
  · exact add_of_mem _ x hcx ((RMem_add l x hC x).mpr (Or.inr rfl))
  · exact hcx.2.imp (fun h => by omega)

/-- C9 witness: inserting 2 then 1 into the canonical list `[(0, 0)]`
gives the same ranges as inserting 1 then 2, and inserting 2 twice the
same as once. -/
theorem C9_add_to_ranges_witness :
    Canonical [((0 : Nat), (0 : Nat))] ∧
    add_to_ranges (add_to_ranges [(0, 0)] 2) 1 = add_to_ranges (add_to_ranges [(0, 0)] 1) 2 ∧
    add_to_ranges (add_to_ranges [(0, 0)] 2) 2 = add_to_ranges [(0, 0)] 2 := by
  refine ⟨by decide, (C9_add_to_ranges_comm_idem [(0, 0)] 2 1 (by decide)).1,
    (C9_add_to_ranges_comm_idem [(0, 0)] 2 0 (by decide)).2.1⟩

/-- C10: when a chunk arrives whose offset is not block-aligned and does
not equal the receiver's recorded `outoffset`, the bytes previously
buffered in `outbuf` for the pending partial block are silently
discarded: no submission is made from them (the submission log is exactly
the whole-block submission of the chunk's block-aligned remainder,
independent of `outbuf`), no error is reported on their account (the
return value reflects only that remaining submission), the submission —
when there is one — happens at a block-aligned offset, and `outoffset`
advances to the end of the new chunk. -/
theorem C10_misaligned_chunk_discards_pending (σ : List Nat → Nat → Nat → Int)
    (zr : zsync_receiver) (buf : List Nat) (offset len : Nat)
    (hbs : 0 < zr.blocksize)
    (h1 : offset % zr.blocksize ≠ 0) (h2 : zr.outoffset ≠ offset) :
    (zsync_receive_data σ zr buf offset len).2.1 =
      (if len - min len (zr.blocksize - offset % zr.blocksize) ≥ zr.blocksize
       then [(buf.drop (min len (zr.blocksize - offset % zr.blocksize)),
              offset + min len (zr.blocksize - offset % zr.blocksize),
              (len - min len (zr.blocksize - offset % zr.blocksize)) / zr.blocksize)]
       else []) ∧
    (zsync_receive_data σ zr buf offset len).2.2 =
      (if ((zsync_receive_data σ zr buf offset len).2.1).any
            (fun e => σ e.1 e.2.1 e.2.2 ≠ 0) then 1 else 0) ∧
    (len - min len (zr.blocksize - offset % zr.blocksize) ≥ zr.blocksize →
      (offset + min len (zr.blocksize - offset % zr.blocksize)) % zr.blocksize = 0) ∧
    (zsync_receive_data σ zr buf offset len).1.outoffset = offset + len := by
  have hne : ¬ zr.outoffset = offset := h2
  refine ⟨?_, ?_, ?_, ?_⟩
  · simp only [zsync_receive_data, if_pos h1, if_neg hne]
    split
    · simp
    · simp
  · simp only [zsync_receive_data, if_pos h1, if_neg hne]
  · intro hge
    have hr : offset % zr.blocksize < zr.blocksize := Nat.mod_lt offset hbs
    have hx : min len (zr.blocksize - offset % zr.blocksize) =
        zr.blocksize - offset % zr.blocksize := by omega
    rw [hx]
    set r := offset % zr.blocksize with hrdef
    obtain ⟨q, hq⟩ : ∃ q, offset = zr.blocksize * q + r :=
      ⟨offset / zr.blocksize, by rw [hrdef]; exact (Nat.div_add_mod offset zr.blocksize).symm⟩
    rw [hq, Nat.add_assoc, Nat.add_sub_cancel' (le_of_lt hr), ← Nat.mul_succ]
    exact Nat.mul_mod_right zr.blocksize (q + 1)
  · simp only [zsync_receive_data, if_pos h1, if_neg hne]
    split
    · simp
      omega
    · split <;> omega

/-- C10 witness: blocksize 2, a pending partial block recorded at
`outoffset = 1`, and a new chunk of 3 bytes at the misaligned offset 5:
the 2 block-aligned bytes at offset 6 are submitted as block 3 and the
pending byte is dropped without error. -/
theorem C10_misaligned_chunk_witness :
    (zsync_receive_data (fun _ _ _ => 0) ⟨2, [9, 0], 1⟩ [4, 5, 6] 5 3).2.1 =
      [([5, 6], 6, 1)] ∧
    (zsync_receive_data (fun _ _ _ => 0) ⟨2, [9, 0], 1⟩ [4, 5, 6] 5 3).2.2 = 0 ∧
    (zsync_receive_data (fun _ _ _ => 0) ⟨2, [9, 0], 1⟩ [4, 5, 6] 5 3).1.outoffset = 8 := by
  have h := C10_misaligned_chunk_discards_pending (fun _ _ _ => 0)
    ⟨2, [9, 0], 1⟩ [4, 5, 6] 5 3 (by decide) (by decide) (by decide)
  refine ⟨?_, ?_, h.2.2.2⟩
  · rw [h.1]; decide
  · rw [h.2.1]; decide

end Zsync
